import Mathlib

/-!
Verification of the i18n namespace pipeline of this repository.

The pipeline has four components, all operating on JSON translation tables:
  * a static configuration (`scripts/i18n-config.mjs`): `NAMESPACES`,
    `LANGUAGES`, base locale `"en"`;
  * a prefix classifier and one-time namespace splitter
    (`scripts/split-i18n-namespaces.mjs`): `getNamespace`, `splitLanguage`,
    `main`;
  * a key synchronizer (`scripts/sync-i18n-keys.mjs`): `main`;
  * a type generator (`scripts/generate-i18n-types.mjs`): `generateTypes`.

Modelling conventions:
  * A parsed JSON object whose values are strings is modelled as an ordered
    association list `Table`.  JavaScript objects preserve insertion order
    for non-numeric string keys, which is what the scripts rely on;
    `obj[k] = v` updates in place or appends (`objSet`), `delete obj[k]`
    removes the entry (`objDelete`), `Object.keys` is `tkeys`.
    `JSON.parse` always yields objects with pairwise-distinct keys, so
    `Nodup` hypotheses on key lists model parsed inputs.
  * The on-disk locale tree is a function `LocaleTree` from locale and namespace
    to an optional parsed table; a missing file is `none`.  Files written
    by the scripts are `JSON.stringify(obj, null, 2) + "\n"`, modelled
    byte-for-byte by `serializeTable`/`fileBytes`.
  * A file that is missing and a file whose content fails to parse both
    throw in `fs.readFileSync`/`JSON.parse`; both are modelled as `none`
    in the splitter's input.
  * `Array.prototype.sort()` on distinct strings produces the unique
    sorted permutation; it is modelled by `sortKeys` (insertion sort by
    `≤` on `String`).
-/

/-- A parsed JSON object with string values: ordered association list,
mirroring JavaScript object insertion order. -/
abbrev Table := List (String × String)

/-- `Object.keys`. -/
def tkeys (t : Table) : List String := t.map Prod.fst

/-- JavaScript property read `t[k]` (first matching entry; parsed objects
have distinct keys). -/
def tlookup : Table → String → Option String
  | [], _ => none
  | (k', v) :: rest, k => if k' = k then some v else tlookup rest k

/-- JavaScript property write `t[k] = v`: update in place if the key is
present, append otherwise. -/
def objSet : Table → String → String → Table
  | [], k, v => [(k, v)]
  | (k', v') :: rest, k, v =>
    if k' = k then (k', v) :: rest else (k', v') :: objSet rest k v

/-- JavaScript `delete t[k]`. -/
def objDelete (t : Table) (k : String) : Table :=
  t.filter (fun e => decide (e.1 ≠ k))

/-- The loop `sorted = {}; for (key of ks) if (lookup succeeds)
sorted[key] = src[key]`, used by both the splitter and the synchronizer to
rebuild a table in a prescribed key order. -/
def rebuildAux (src : Table) : Table → List String → Table
  | acc, [] => acc
  | acc, k :: ks =>
    rebuildAux src
      (match tlookup src k with
       | some v => objSet acc k v
       | none => acc) ks

/-- Rebuild a table by iterating `ks`, emitting the keys that are present
in `src`, in the order of `ks`. -/
def rebuildLoop (ks : List String) (src : Table) : Table :=
  rebuildAux src [] ks

/-! ## Static configuration (`scripts/i18n-config.mjs`) -/

/-- The eleven declared namespaces (`NAMESPACES` in `i18n-config.mjs`). -/
def NAMESPACES : List String :=
  ["common", "analytics", "session", "settings", "tools", "error",
   "message", "renderers", "update", "feedback", "recentEdits"]

/-- The supported locales (`LANGUAGES` in `i18n-config.mjs`). -/
def LANGUAGES : List String := ["en", "ko", "ja", "zh-CN", "zh-TW"]

/-- The base locale (`BASE_LANG` in `i18n-config.mjs`). -/
def BASE_LANG : String := "en"

/-- `LANGUAGES.filter(lang => lang !== 'en')` from `sync-i18n-keys.mjs`. -/
def TARGET_LANGUAGES : List String :=
  LANGUAGES.filter (fun lang => decide (lang ≠ "en"))

/-! ## Prefix classifier (`scripts/split-i18n-namespaces.mjs`) -/

/-- The fixed `PREFIX_TO_NAMESPACE` object mapping each of the 63 key
prefixes to its namespace. -/
def PREFIX_TO_NAMESPACE : Table :=
  [("common", "common"), ("status", "common"), ("time", "common"),
   ("copyButton", "common"),
   ("analytics", "analytics"),
   ("session", "session"), ("project", "session"),
   ("settingsManager", "settings"), ("settings", "settings"),
   ("folderPicker", "settings"),
   ("tools", "tools"), ("toolResult", "tools"),
   ("toolUseRenderer", "tools"), ("collapsibleToolResult", "tools"),
   ("error", "error"),
   ("message", "message"), ("messages", "message"),
   ("messageViewer", "message"), ("messageContentDisplay", "message"),
   ("advancedTextDiff", "renderers"), ("agentProgressGroup", "renderers"),
   ("agentTaskGroup", "renderers"), ("assistantMessageDetails", "renderers"),
   ("bashCodeExecutionToolResultRenderer", "renderers"),
   ("captureMode", "renderers"), ("citationRenderer", "renderers"),
   ("claudeContentArrayRenderer", "renderers"),
   ("claudeSessionHistoryRenderer", "renderers"),
   ("claudeToolUseDisplay", "renderers"),
   ("codebaseContextRenderer", "renderers"),
   ("codeExecutionToolResultRenderer", "renderers"),
   ("commandOutputDisplay", "renderers"), ("commandRenderer", "renderers"),
   ("contentArray", "renderers"), ("diffViewer", "renderers"),
   ("fileContent", "renderers"), ("fileEditRenderer", "renderers"),
   ("fileHistorySnapshotRenderer", "renderers"),
   ("fileListRenderer", "renderers"), ("gitWorkflowRenderer", "renderers"),
   ("globalSearch", "renderers"), ("imageRenderer", "renderers"),
   ("mcpRenderer", "renderers"), ("progressRenderer", "renderers"),
   ("queueOperationRenderer", "renderers"),
   ("structuredPatch", "renderers"), ("summaryMessageRenderer", "renderers"),
   ("systemMessageRenderer", "renderers"), ("taskNotification", "renderers"),
   ("taskOperation", "renderers"), ("terminalStreamRenderer", "renderers"),
   ("textEditorCodeExecutionToolResultRenderer", "renderers"),
   ("thinkingRenderer", "renderers"),
   ("toolSearchToolResultRenderer", "renderers"),
   ("webFetchToolResultRenderer", "renderers"),
   ("webSearchRenderer", "renderers"),
   ("updateModal", "update"), ("updateSettingsModal", "update"),
   ("updateIntroModal", "update"), ("simpleUpdateModal", "update"),
   ("upToDateNotification", "update"),
   ("feedback", "feedback"),
   ("recentEdits", "recentEdits")]

/-- `key.split('.')[0]`: the first dot-separated segment, i.e. the
characters before the first `'.'` (a key with no dot is its own first
segment; the empty string splits to itself). -/
def keyHead (key : String) : String :=
  String.mk (key.data.takeWhile (fun c => c ≠ '.'))

/-- `getNamespace` from `split-i18n-namespaces.mjs`:
`PREFIX_TO_NAMESPACE[prefix] || 'misc'` (every stored namespace name is a
nonempty string, hence truthy, so `||` is exactly a default for a missing
key). -/
def getNamespace (key : String) : String :=
  (tlookup PREFIX_TO_NAMESPACE (keyHead key)).getD "misc"

/-! ## Namespace splitter (`scripts/split-i18n-namespaces.mjs`) -/

/-- Code-unit comparison of two characters, as JavaScript compares
strings. -/
def charLtb (a b : Char) : Bool := a.toNat < b.toNat

/-- Lexicographic code-unit order on character lists: the order
`Array.prototype.sort()` uses on strings. -/
def strListLe : List Char → List Char → Bool
  | [], _ => true
  | _ :: _, [] => false
  | a :: as, b :: bs =>
    if charLtb a b then true
    else if charLtb b a then false
    else strListLe as bs

/-- `a <= b` on strings in JavaScript's default sort order. -/
def strLe (a b : String) : Bool := strListLe a.data b.data

/-- `Array.prototype.sort()` on a list of keys: the unique sorted
permutation of a list of strings (modelled by insertion sort by
`strLe`). -/
def sortKeys (ks : List String) : List String :=
  List.insertionSort (fun a b => strLe a b = true) ks

/-- One step of the classification loop of `splitLanguage`:
`namespaceData[getNamespace(key)][key] = value`.  The `namespaceData`
object (whose keys are exactly `NAMESPACES ++ ['misc']`) is modelled as a
function from namespace to table. -/
def partitionStep (f : String → Table) (e : String × String) : String → Table :=
  fun ns => if ns = getNamespace e.1 then objSet (f ns) e.1 e.2 else f ns

/-- The classification loop of `splitLanguage` over all entries of the
flat per-locale table. -/
def partitionFun (data : Table) : String → Table :=
  data.foldl partitionStep (fun _ => [])

/-- `splitLanguage`, given the parsed flat table of one locale: the list
of `(namespace, table)` files it writes, in `NAMESPACES ++ ['misc']`
order.  Empty partitions produce no file; each written table is rebuilt
with its keys sorted lexicographically. -/
def splitLanguage (data : Table) : List (String × Table) :=
  (NAMESPACES ++ ["misc"]).filterMap (fun ns =>
    let nsData := partitionFun data ns
    if nsData.isEmpty then none
    else some (ns, rebuildLoop (sortKeys (tkeys nsData)) nsData))

/-- The locale loop of the splitter's `main`: locales are processed in
order; a locale whose flat input file is missing (or does not parse, both
modelled as `none`) throws inside `splitLanguage`, which aborts the whole
run — there is no `try`/`catch` in `main`.  Returns the files written
before the abort and the failing locale, if any. -/
def splitRun : List String → (String → Option Table) →
    List (String × String × Table) × Option String
  | [], _ => ([], none)
  | lang :: rest, files =>
    match files lang with
    | none => ([], some lang)
    | some data =>
      let outs := (splitLanguage data).map (fun p => (lang, p.1, p.2))
      let next := splitRun rest files
      (outs ++ next.1, next.2)

/-- The splitter's `main` over the legacy flat files (locale ↦ parsed
flat table, `none` when the file is missing or unparsable). -/
def mainSplit (files : String → Option Table) :
    List (String × String × Table) × Option String :=
  splitRun LANGUAGES files

/-! ## Key synchronizer (`scripts/sync-i18n-keys.mjs`) -/

/-- The on-disk locale tree: locale → namespace → parsed content of
`locales/<locale>/<namespace>.json`, `none` when the file is absent. -/
abbrev LocaleTree := String → String → Option Table

/-- Writing (or deleting) one file of the tree. -/
def treeUpd (t : LocaleTree) (l n : String) (v : Option Table) : LocaleTree :=
  fun l' n' => if l' = l ∧ n' = n then v else t l' n'

/-- `missingKeys`: keys present in the base table but absent from the
target table. -/
def missingKeys (en tgt : Table) : List String :=
  (tkeys en).filter (fun k => decide (k ∉ tkeys tgt))

/-- `extraKeys`: keys present in the target table but absent from the
base table. -/
def extraKeys (en tgt : Table) : List String :=
  (tkeys tgt).filter (fun k => decide (k ∉ tkeys en))

/-- The per-(namespace, locale) body of the synchronizer's `main`: insert
each missing key with the base locale's value, delete each extra key,
then rebuild the table following the base table's key order. -/
def syncTable (en tgt : Table) : Table :=
  let afterAdd := (missingKeys en tgt).foldl
    (fun d k => objSet d k ((tlookup en k).getD "")) tgt
  let afterDel := (extraKeys en tgt).foldl objDelete afterAdd
  rebuildLoop (tkeys en) afterDel

/-- One iteration of the inner locale loop: read the target file (missing
file ↦ empty table), synchronize it against the base table, write it
back, and record the added/removed counts for the report. -/
def syncPair (en : Table) (ns : String)
    (st : LocaleTree × List (String × String × Nat × Nat)) (lang : String) :
    LocaleTree × List (String × String × Nat × Nat) :=
  let langData := (st.1 lang ns).getD []
  (treeUpd st.1 lang ns (some (syncTable en langData)),
   st.2 ++ [(ns, lang, (missingKeys en langData).length,
             (extraKeys en langData).length)])

/-- One iteration of the outer namespace loop: skip the namespace when the
base locale's file is missing, otherwise synchronize every target
locale. -/
def syncNamespace (st : LocaleTree × List (String × String × Nat × Nat))
    (ns : String) : LocaleTree × List (String × String × Nat × Nat) :=
  match st.1 "en" ns with
  | none => st
  | some en => TARGET_LANGUAGES.foldl (syncPair en ns) st

/-- The synchronizer's `main` (processing part): the final tree together
with the list of `(namespace, locale, added, removed)` report entries. -/
def runSync (t : LocaleTree) : LocaleTree × List (String × String × Nat × Nat) :=
  NAMESPACES.foldl syncNamespace (t, [])

/-- The final verification of the synchronizer's `main`: for each locale
(`en` first, then the target locales) the total number of keys over the
eleven declared namespaces' persisted files.  This is everything the
final verification computes. -/
def finalSummary (t : LocaleTree) : List (String × Nat) :=
  ("en" :: TARGET_LANGUAGES).map (fun lang =>
    (lang, (NAMESPACES.map (fun ns => ((t lang ns).getD []).length)).sum))

/-! ## File serialization (`JSON.stringify(obj, null, 2)` plus newline) -/

/-- Lowercase hexadecimal digit, as produced by `JSON.stringify`. -/
def hexDigit (n : Nat) : Char :=
  if n < 10 then Char.ofNat (48 + n) else Char.ofNat (87 + n)

/-- `JSON.stringify` escaping of one character of a string body. -/
def jsonEscapeChar (c : Char) : String :=
  if c = Char.ofNat 34 then String.mk [Char.ofNat 92, Char.ofNat 34]
  else if c = Char.ofNat 92 then String.mk [Char.ofNat 92, Char.ofNat 92]
  else if c = Char.ofNat 10 then String.mk [Char.ofNat 92, 'n']
  else if c = Char.ofNat 13 then String.mk [Char.ofNat 92, 'r']
  else if c = Char.ofNat 9 then String.mk [Char.ofNat 92, 't']
  else if c = Char.ofNat 8 then String.mk [Char.ofNat 92, 'b']
  else if c = Char.ofNat 12 then String.mk [Char.ofNat 92, 'f']
  else if c.toNat < 32 then
    String.mk [Char.ofNat 92, 'u', '0', '0',
      hexDigit (c.toNat / 16), hexDigit (c.toNat % 16)]
  else String.mk [c]

/-- `JSON.stringify` escaping of a string body. -/
def jsonEscape (s : String) : String :=
  s.data.foldl (fun acc c => acc ++ jsonEscapeChar c) ""

/-- A quoted JSON string literal. -/
def jsonQuote (s : String) : String :=
  String.mk [Char.ofNat 34] ++ jsonEscape s ++ String.mk [Char.ofNat 34]

/-- `JSON.stringify(t, null, 2)`: the empty object prints as `\x7b\x7d`,
otherwise each entry prints on its own line indented by two spaces. -/
def serializeTable (t : Table) : String :=
  if t.isEmpty then "\x7b\x7d"
  else "\x7b\n"
    ++ String.intercalate ",\n"
        (t.map (fun e => "  " ++ jsonQuote e.1 ++ ": " ++ jsonQuote e.2))
    ++ "\n\x7d"

/-- The bytes of a namespace file as the scripts write it:
`JSON.stringify(obj, null, 2) + '\n'` (or no file at all). -/
def fileBytes (f : Option Table) : Option String :=
  f.map (fun t => serializeTable t ++ "\n")

/-! ## Type generator (`scripts/generate-i18n-types.mjs`) -/

/-- The `namespaceKeys` map of `generateTypes`: for each declared
namespace whose base-locale file exists, its key list; a namespace with a
missing base file only warns and is skipped. -/
def typeGenNamespaceKeys (files : String → Option Table) :
    List (String × List String) :=
  NAMESPACES.filterMap (fun ns => (files ns).map (fun t => (ns, tkeys t)))

/-- The `allKeys` accumulator of `generateTypes`: concatenation of the key
lists of the existing base-locale namespace files, in declaration
order. -/
def typeGenAllKeys (files : String → Option Table) : List String :=
  NAMESPACES.foldl (fun acc ns =>
    match files ns with
    | none => acc
    | some t => acc ++ tkeys t) []

/-- The alternatives of the emitted `TranslationKey` union type:
`allKeys.sort()`. -/
def typeGenGlobalUnion (files : String → Option Table) : List String :=
  sortKeys (typeGenAllKeys files)

/-- The emitted per-namespace key enumerations: for each surviving
namespace, `keys.sort()`. -/
def typeGenEnums (files : String → Option Table) :
    List (String × List String) :=
  (typeGenNamespaceKeys files).map (fun p => (p.1, sortKeys p.2))

/-! ## Derived closed forms and hypothesis predicates -/

/-- Closed form of the tree produced by one synchronizer run (proved equal
to `(runSync t).1` in `runSync_eq`). -/
def syncedTree (t : LocaleTree) : LocaleTree :=
  fun l n =>
    if n ∈ NAMESPACES ∧ l ∈ TARGET_LANGUAGES ∧ (t "en" n).isSome
    then some (syncTable ((t "en" n).getD []) ((t l n).getD []))
    else t l n

/-- Closed form of the synchronizer's report (proved equal to
`(runSync t).2` in `runSync_eq`). -/
def syncReport (t : LocaleTree) : List (String × String × Nat × Nat) :=
  NAMESPACES.flatMap (fun ns =>
    match t "en" ns with
    | none => []
    | some en => TARGET_LANGUAGES.map (fun lang =>
        (ns, lang, (missingKeys en ((t lang ns).getD [])).length,
         (extraKeys en ((t lang ns).getD [])).length)))

/-- The hypothesis of the idempotence claim as stated: for every declared
namespace, every target locale's key set equals the base locale's key set
(a missing file counting as the empty key set). -/
def keySetConsistent (t : LocaleTree) : Prop :=
  ∀ ns ∈ NAMESPACES, ∀ lang ∈ TARGET_LANGUAGES,
    (∀ k ∈ tkeys ((t lang ns).getD []), k ∈ tkeys ((t "en" ns).getD [])) ∧
    (∀ k ∈ tkeys ((t "en" ns).getD []), k ∈ tkeys ((t lang ns).getD []))

/-- The strengthened hypothesis forced by the idempotence counterexample:
for every declared namespace whose base file exists, the base file has
distinct keys and every target locale's file exists with the same key
sequence (set and order) as the base file. -/
def orderConsistent (t : LocaleTree) : Prop :=
  ∀ ns ∈ NAMESPACES,
    (tkeys ((t "en" ns).getD [])).Nodup ∧
    ((t "en" ns).isSome →
      ∀ lang ∈ TARGET_LANGUAGES,
        (t lang ns).isSome ∧
        tkeys ((t lang ns).getD []) = tkeys ((t "en" ns).getD []))

/-- Every declared namespace has a base-locale file, with distinct
keys. -/
def basesPresent (t : LocaleTree) : Prop :=
  ∀ ns ∈ NAMESPACES,
    (t "en" ns).isSome ∧ (tkeys ((t "en" ns).getD [])).Nodup

/-- Per-namespace base files have pairwise distinct keys. -/
def nsFilesNodup (files : String → Option Table) : Prop :=
  ∀ ns ∈ NAMESPACES, (tkeys ((files ns).getD [])).Nodup

/-- Distinct namespaces' base files have disjoint key sets. -/
def nsFilesDisjoint (files : String → Option Table) : Prop :=
  ∀ ns₁ ∈ NAMESPACES, ∀ ns₂ ∈ NAMESPACES, ns₁ ≠ ns₂ →
    ∀ k ∈ tkeys ((files ns₁).getD []), k ∉ tkeys ((files ns₂).getD [])

instance decKeySetConsistent (t : LocaleTree) :
    Decidable (keySetConsistent t) := by
  unfold keySetConsistent
  infer_instance

instance decOrderConsistent (t : LocaleTree) :
    Decidable (orderConsistent t) := by
  unfold orderConsistent
  infer_instance

instance decBasesPresent (t : LocaleTree) : Decidable (basesPresent t) := by
  unfold basesPresent
  infer_instance

instance decNsFilesNodup (files : String → Option Table) :
    Decidable (nsFilesNodup files) := by
  unfold nsFilesNodup
  infer_instance

instance decNsFilesDisjoint (files : String → Option Table) :
    Decidable (nsFilesDisjoint files) := by
  unfold nsFilesDisjoint
  infer_instance

/-! ## Concrete inputs used by witnesses and counterexamples -/

/-- A tree in which every locale's `common` key set equals the base key
set, but the `ko` file stores the keys in a different order. -/
def cexTree1 : LocaleTree := fun l n =>
  if n = "common" then
    if l = "en" then some [("a", "1"), ("b", "2")]
    else if l = "ko" then some [("b", "2"), ("a", "1")]
    else if l = "ja" ∨ l = "zh-CN" ∨ l = "zh-TW" then
      some [("a", "1"), ("b", "2")]
    else none
  else none

/-- A tree whose target files match the base file's key sequence
exactly. -/
def witTree1 : LocaleTree := fun l n =>
  if n = "common" then
    if l = "en" then some [("a", "1"), ("b", "2")]
    else if l ∈ TARGET_LANGUAGES then some [("a", "hola"), ("b", "mundo")]
    else none
  else none

/-- The base table of the convergence example: keys `a`, `b`, `c`. -/
def exBase : Table := [("a", "A"), ("b", "B"), ("c", "C")]

/-- The target table of the convergence example: keys `a`, `d`. -/
def exTarget : Table := [("a", "old"), ("d", "D")]

/-- A tree whose `ko/common` file stores a strict subset of the base keys
in scrambled order. -/
def witTree3 : LocaleTree := fun l n =>
  if n = "common" ∧ l = "en" then some [("a", "1"), ("b", "2"), ("c", "3")]
  else if n = "common" ∧ l = "ko" then some [("c", "z"), ("a", "x")]
  else none

/-- A flat table hitting a mapped prefix, a second mapped prefix, and an
unmapped prefix. -/
def exFlat : Table :=
  [("common.a", "1"), ("analytics.views", "2"), ("weird.key", "3")]

/-- Legacy flat files in which `en` and `ja` parse but `ko` is missing:
`ko` is reached second, so `en` is processed and `ja` is not. -/
def exSplitFiles : String → Option Table := fun lang =>
  if lang = "en" then some [("common.a", "1")]
  else if lang = "ja" then some [("common.b", "2")]
  else none

/-- A tree with no base files at all but one `ko` file: after the run the
per-namespace counts of `ko` and `en` differ for `common`. -/
def cexTree8 : LocaleTree := fun l n =>
  if l = "ko" ∧ n = "common" then some [("x", "1")] else none

/-- A tree in which every declared namespace has a base file. -/
def witTree8 : LocaleTree := fun l n =>
  if l = "en" ∧ n ∈ NAMESPACES then some [("k", "v")] else none

/-- Base-locale files in which two namespaces share the key `x`. -/
def cexFiles9 : String → Option Table := fun ns =>
  if ns = "common" then some [("x", "1")]
  else if ns = "analytics" then some [("x", "2")]
  else none

/-- Base-locale files with pairwise disjoint key sets. -/
def witFiles9 : String → Option Table := fun ns =>
  if ns = "common" then some [("b", "1"), ("a", "2")]
  else if ns = "error" then some [("c", "3")]
  else none

/-! ## Basic lemmas on table operations -/

theorem tlookup_isSome_iff (t : Table) (k : String) :
    (tlookup t k).isSome ↔ k ∈ tkeys t := by
  induction t with
  | nil => simp [tlookup, tkeys]
  | cons e rest ih =>
    obtain ⟨k', v⟩ := e
    by_cases h : k' = k
    · subst h; simp [tlookup, tkeys]
    · simp [tlookup, tkeys, h, ih, Ne.symm h]

theorem tlookup_mem (t : Table) (k : String) (v : String)
    (h : tlookup t k = some v) : (k, v) ∈ t := by
  induction t with
  | nil => simp [tlookup] at h
  | cons e rest ih =>
    obtain ⟨k', v'⟩ := e
    by_cases hk : k' = k
    · subst hk
      simp [tlookup] at h
      subst h; exact List.mem_cons_self _ _
    · simp [tlookup, hk] at h
      exact List.mem_cons_of_mem _ (ih h)

theorem tlookup_eq_none_iff (t : Table) (k : String) :
    tlookup t k = none ↔ k ∉ tkeys t := by
  rw [← tlookup_isSome_iff, Option.not_isSome_iff_eq_none]

theorem tkeys_cons (e : String × String) (t : Table) :
    tkeys (e :: t) = e.1 :: tkeys t := rfl

theorem tkeys_append (t₁ t₂ : Table) :
    tkeys (t₁ ++ t₂) = tkeys t₁ ++ tkeys t₂ := by
  simp [tkeys]

theorem tlookup_objSet (t : Table) (k v k' : String) :
    tlookup (objSet t k v) k' = if k' = k then some v else tlookup t k' := by
  induction t with
  | nil =>
    by_cases h : k' = k
    · subst h; simp [objSet, tlookup]
    · have h2 : ¬ k = k' := fun hh => h hh.symm
      simp [objSet, tlookup, h, h2]
  | cons e rest ih =>
    obtain ⟨k₀, v₀⟩ := e
    by_cases h0 : k₀ = k
    · subst h0
      by_cases h1 : k' = k₀
      · subst h1; simp [objSet, tlookup]
      · have h2 : ¬ k₀ = k' := fun hh => h1 hh.symm
        simp [objSet, tlookup, h1, h2]
    · by_cases h1 : k₀ = k'
      · subst h1
        simp [objSet, tlookup, h0]
      · simp [objSet, tlookup, h0, h1, ih]

theorem mem_tkeys_objSet (t : Table) (k v k' : String) :
    k' ∈ tkeys (objSet t k v) ↔ k' = k ∨ k' ∈ tkeys t := by
  rw [← tlookup_isSome_iff, tlookup_objSet]
  by_cases h : k' = k
  · simp [h]
  · simp [h, tlookup_isSome_iff]

theorem tkeys_objSet_of_mem (t : Table) (k v : String) (h : k ∈ tkeys t) :
    tkeys (objSet t k v) = tkeys t := by
  induction t with
  | nil => simp [tkeys] at h
  | cons e rest ih =>
    obtain ⟨k₀, v₀⟩ := e
    by_cases h0 : k₀ = k
    · subst h0; simp [objSet, tkeys]
    · have hk : k ∈ tkeys rest := by
        have hor : k = k₀ ∨ k ∈ tkeys rest := by simpa [tkeys] using h
        rcases hor with h1 | h1
        · exact absurd h1.symm h0
        · exact h1
      simp only [objSet, if_neg h0, tkeys, List.map_cons, List.cons.injEq,
        true_and]
      exact ih hk

theorem objSet_of_not_mem (t : Table) (k v : String) (h : k ∉ tkeys t) :
    objSet t k v = t ++ [(k, v)] := by
  induction t with
  | nil => simp [objSet]
  | cons e rest ih =>
    obtain ⟨k₀, v₀⟩ := e
    have hsplit : ¬ (k = k₀ ∨ k ∈ tkeys rest) := by
      intro hor
      apply h
      rw [tkeys_cons]
      rcases hor with h1 | h1
      · exact List.mem_cons.mpr (Or.inl h1)
      · exact List.mem_cons_of_mem _ h1
    push_neg at hsplit
    have h2 : ¬ k₀ = k := fun hh => hsplit.1 hh.symm
    simp [objSet, h2, ih hsplit.2]

theorem tkeys_nodup_objSet (t : Table) (k v : String)
    (h : (tkeys t).Nodup) : (tkeys (objSet t k v)).Nodup := by
  by_cases hm : k ∈ tkeys t
  · rw [tkeys_objSet_of_mem t k v hm]; exact h
  · rw [objSet_of_not_mem t k v hm]
    have hkeys : tkeys (t ++ [(k, v)]) = tkeys t ++ [k] := by simp [tkeys]
    rw [hkeys]
    refine List.Nodup.append h (List.nodup_singleton k) ?_
    intro a ha hak
    simp at hak
    subst hak
    exact hm ha

theorem tlookup_objDelete (t : Table) (k k' : String) :
    tlookup (objDelete t k) k' = if k' = k then none else tlookup t k' := by
  induction t with
  | nil => simp [objDelete, tlookup]
  | cons e rest ih =>
    obtain ⟨k₀, v₀⟩ := e
    by_cases h0 : k₀ = k
    · have hdrop : objDelete ((k₀, v₀) :: rest) k = objDelete rest k := by
        simp [objDelete, h0]
      rw [hdrop, ih]
      by_cases h1 : k' = k
      · simp [h1]
      · have h2 : ¬ k₀ = k' := by
          subst h0; exact fun hh => h1 hh.symm
        simp [h1, tlookup, h2]
    · have hkeep : objDelete ((k₀, v₀) :: rest) k
          = (k₀, v₀) :: objDelete rest k := by
        simp [objDelete, h0]
      rw [hkeep]
      by_cases h1 : k₀ = k'
      · subst h1
        simp [tlookup, h0]
      · simp [tlookup, h1, ih]

theorem mem_tkeys_objDelete (t : Table) (k k' : String) :
    k' ∈ tkeys (objDelete t k) ↔ k' ≠ k ∧ k' ∈ tkeys t := by
  rw [← tlookup_isSome_iff, tlookup_objDelete]
  by_cases h : k' = k
  · simp [h]
  · simp [h, tlookup_isSome_iff]

theorem tlookup_foldl_objSet (ks : List String) (f : String → String)
    (t : Table) (k : String) :
    tlookup (ks.foldl (fun d k' => objSet d k' (f k')) t) k
      = if k ∈ ks then some (f k) else tlookup t k := by
  induction ks generalizing t with
  | nil => simp
  | cons k₀ rest ih =>
    rw [List.foldl_cons, ih]
    by_cases h : k ∈ rest
    · simp [h]
    · by_cases h0 : k = k₀
      · subst h0; simp [h, tlookup_objSet]
      · simp [h, h0, tlookup_objSet]

theorem mem_tkeys_foldl_objSet (ks : List String) (f : String → String)
    (t : Table) (k : String) :
    k ∈ tkeys (ks.foldl (fun d k' => objSet d k' (f k')) t)
      ↔ k ∈ ks ∨ k ∈ tkeys t := by
  rw [← tlookup_isSome_iff, tlookup_foldl_objSet]
  by_cases h : k ∈ ks
  · simp [h]
  · simp [h, tlookup_isSome_iff]

theorem tlookup_foldl_objDelete (ks : List String) (t : Table) (k : String) :
    tlookup (ks.foldl objDelete t) k
      = if k ∈ ks then none else tlookup t k := by
  induction ks generalizing t with
  | nil => simp
  | cons k₀ rest ih =>
    rw [List.foldl_cons, ih]
    by_cases h : k ∈ rest
    · simp [h]
    · by_cases h0 : k = k₀
      · subst h0; simp [h, tlookup_objDelete]
      · simp [h, h0, tlookup_objDelete]

theorem rebuildAux_eq (src : Table) (ks : List String) (acc : Table)
    (hnd : ks.Nodup) (hdis : ∀ k ∈ ks, k ∉ tkeys acc) :
    rebuildAux src acc ks
      = acc ++ ks.filterMap (fun k => (tlookup src k).map (fun v => (k, v))) := by
  induction ks generalizing acc with
  | nil => simp [rebuildAux]
  | cons k₀ rest ih =>
    have hnd' : rest.Nodup := (List.nodup_cons.mp hnd).2
    cases hsrc : tlookup src k₀ with
    | none =>
      simp only [rebuildAux, hsrc]
      rw [ih acc hnd' (fun k hk => hdis k (List.mem_cons_of_mem _ hk))]
      simp [List.filterMap_cons, hsrc]
    | some v =>
      simp only [rebuildAux, hsrc]
      have hacc : objSet acc k₀ v = acc ++ [(k₀, v)] :=
        objSet_of_not_mem _ _ _ (hdis k₀ (List.mem_cons_self _ _))
      rw [hacc, ih (acc ++ [(k₀, v)]) hnd' ?_]
      · simp [List.filterMap_cons, hsrc]
      · intro k hk
        rw [tkeys_append]
        intro hmem
        rcases List.mem_append.mp hmem with hm | hm
        · exact hdis k (List.mem_cons_of_mem _ hk) hm
        · have : k = k₀ := by simpa [tkeys] using hm
          exact (List.nodup_cons.mp hnd).1 (this ▸ hk)

theorem rebuildLoop_eq (ks : List String) (src : Table) (hnd : ks.Nodup) :
    rebuildLoop ks src
      = ks.filterMap (fun k => (tlookup src k).map (fun v => (k, v))) := by
  rw [rebuildLoop, rebuildAux_eq src ks [] hnd (by simp [tkeys])]
  simp

theorem tkeys_filterMap_lookup (ks : List String) (src : Table)
    (h : ∀ k ∈ ks, k ∈ tkeys src) :
    tkeys (ks.filterMap (fun k => (tlookup src k).map (fun v => (k, v)))) = ks := by
  induction ks with
  | nil => simp [tkeys]
  | cons k₀ rest ih =>
    have h₀ : k₀ ∈ tkeys src := h k₀ (List.mem_cons_self _ _)
    obtain ⟨v, hv⟩ :=
      Option.isSome_iff_exists.mp ((tlookup_isSome_iff src k₀).mpr h₀)
    rw [List.filterMap_cons]
    simp only [hv, Option.map_some']
    rw [tkeys_cons]
    simp [ih (fun k hk => h k (List.mem_cons_of_mem _ hk))]

theorem tlookup_filterMap_lookup (ks : List String) (src : Table) (k : String) :
    ks.Nodup →
    tlookup (ks.filterMap (fun k' => (tlookup src k').map (fun v => (k', v)))) k
      = if k ∈ ks then tlookup src k else none := by
  induction ks with
  | nil => simp [tlookup]
  | cons k₀ rest ih =>
    intro hnd
    have hk₀ : k₀ ∉ rest := (List.nodup_cons.mp hnd).1
    have hnd' : rest.Nodup := (List.nodup_cons.mp hnd).2
    rw [List.filterMap_cons]
    cases hsrc : tlookup src k₀ with
    | none =>
      simp only [Option.map_none']
      rw [ih hnd']
      by_cases h : k = k₀
      · subst h
        simp [hk₀, hsrc]
      · simp [h]
    | some v =>
      simp only [Option.map_some']
      by_cases h : k = k₀
      · subst h
        simp [tlookup, hsrc]
      · have h2 : ¬ k₀ = k := fun hh => h hh.symm
        simp only [tlookup, if_neg h2]
        rw [ih hnd']
        simp [h]

theorem mem_missingKeys (en tgt : Table) (k : String) :
    k ∈ missingKeys en tgt ↔ k ∈ tkeys en ∧ k ∉ tkeys tgt := by
  simp [missingKeys, List.mem_filter]

theorem mem_extraKeys (en tgt : Table) (k : String) :
    k ∈ extraKeys en tgt ↔ k ∈ tkeys tgt ∧ k ∉ tkeys en := by
  simp [extraKeys, List.mem_filter]

theorem filter_decide_nil (l : List String) (p : String → Prop)
    [DecidablePred p] (h : ∀ a ∈ l, ¬ p a) :
    l.filter (fun a => decide (p a)) = [] := by
  induction l with
  | nil => rfl
  | cons a rest ih =>
    simp only [List.filter_cons]
    rw [if_neg (by simpa using h a (List.mem_cons_self _ _))]
    exact ih (fun b hb => h b (List.mem_cons_of_mem _ hb))

theorem missingKeys_nil (en tgt : Table)
    (h : ∀ k ∈ tkeys en, k ∈ tkeys tgt) : missingKeys en tgt = [] := by
  rw [missingKeys]
  exact filter_decide_nil _ _ (fun a ha => by simp [h a ha])

theorem extraKeys_nil (en tgt : Table)
    (h : ∀ k ∈ tkeys tgt, k ∈ tkeys en) : extraKeys en tgt = [] := by
  rw [extraKeys]
  exact filter_decide_nil _ _ (fun a ha => by simp [h a ha])

theorem syncTable_def (en tgt : Table) :
    syncTable en tgt = rebuildLoop (tkeys en)
      ((extraKeys en tgt).foldl objDelete
        ((missingKeys en tgt).foldl
          (fun d k => objSet d k ((tlookup en k).getD "")) tgt)) := rfl

theorem tkeys_syncTable (en tgt : Table) (hnd : (tkeys en).Nodup) :
    tkeys (syncTable en tgt) = tkeys en := by
  rw [syncTable_def, rebuildLoop_eq _ _ hnd]
  apply tkeys_filterMap_lookup
  intro k hk
  rw [← tlookup_isSome_iff, tlookup_foldl_objDelete, tlookup_foldl_objSet]
  have hextra : k ∉ extraKeys en tgt := by
    rw [mem_extraKeys]; intro hc; exact hc.2 hk
  rw [if_neg hextra]
  by_cases hm : k ∈ missingKeys en tgt
  · simp [hm]
  · have htgt : k ∈ tkeys tgt := by
      by_contra hc
      exact hm ((mem_missingKeys en tgt k).mpr ⟨hk, hc⟩)
    simp [hm, tlookup_isSome_iff, htgt]

theorem tlookup_syncTable (en tgt : Table) (hnd : (tkeys en).Nodup)
    (k : String) :
    tlookup (syncTable en tgt) k =
      if k ∈ tkeys en then
        (if k ∈ tkeys tgt then tlookup tgt k else tlookup en k)
      else none := by
  rw [syncTable_def, rebuildLoop_eq _ _ hnd, tlookup_filterMap_lookup _ _ k hnd]
  by_cases hk : k ∈ tkeys en
  · rw [if_pos hk, if_pos hk, tlookup_foldl_objDelete, tlookup_foldl_objSet]
    have hextra : k ∉ extraKeys en tgt := by
      rw [mem_extraKeys]; intro hc; exact hc.2 hk
    rw [if_neg hextra]
    by_cases ht : k ∈ tkeys tgt
    · have hm : k ∉ missingKeys en tgt := by
        rw [mem_missingKeys]; intro hc; exact hc.2 ht
      rw [if_neg hm, if_pos ht]
    · have hm : k ∈ missingKeys en tgt :=
        (mem_missingKeys en tgt k).mpr ⟨hk, ht⟩
      rw [if_pos hm, if_neg ht]
      obtain ⟨v, hv⟩ :=
        Option.isSome_iff_exists.mp ((tlookup_isSome_iff en k).mpr hk)
      rw [hv]
      rfl
  · simp [hk]

theorem table_ext (t₁ : Table) : ∀ t₂ : Table, (tkeys t₁).Nodup →
    tkeys t₁ = tkeys t₂ →
    (∀ k ∈ tkeys t₁, tlookup t₁ k = tlookup t₂ k) → t₁ = t₂ := by
  induction t₁ with
  | nil =>
    intro t₂ _ hk _
    cases t₂ with
    | nil => rfl
    | cons e r => simp [tkeys] at hk
  | cons e r ih =>
    intro t₂ hnd hk hl
    obtain ⟨k, v⟩ := e
    cases t₂ with
    | nil => simp [tkeys] at hk
    | cons e₂ r₂ =>
      obtain ⟨k₂, v₂⟩ := e₂
      rw [tkeys_cons, tkeys_cons] at hk
      injection hk with hk1 hk2
      subst hk1
      have hv : v = v₂ := by
        have h := hl k (by rw [tkeys_cons]; exact List.mem_cons_self _ _)
        simpa [tlookup] using h
      subst hv
      rw [tkeys_cons] at hnd
      have hnd' : (tkeys r).Nodup := (List.nodup_cons.mp hnd).2
      have hkhead : k ∉ tkeys r := (List.nodup_cons.mp hnd).1
      congr 1
      apply ih r₂ hnd' hk2
      intro k' hk'
      have hne : ¬ k = k' := fun hh => hkhead (hh ▸ hk')
      have h := hl k' (by rw [tkeys_cons]; exact List.mem_cons_of_mem _ hk')
      simpa [tlookup, hne] using h

theorem syncTable_self (en tgt : Table) (hnd : (tkeys en).Nodup)
    (hkeys : tkeys tgt = tkeys en) : syncTable en tgt = tgt := by
  have hndt : (tkeys tgt).Nodup := by rw [hkeys]; exact hnd
  have hks : tkeys (syncTable en tgt) = tkeys tgt := by
    rw [tkeys_syncTable en tgt hnd, hkeys]
  apply table_ext _ _ (by rw [hks]; exact hndt) hks
  intro k hk
  rw [hks] at hk
  rw [hkeys] at hk
  rw [tlookup_syncTable en tgt hnd k, if_pos hk, if_pos (by rw [hkeys]; exact hk)]

theorem map_congr_mem {α β : Type} (l : List α) (f g : α → β)
    (h : ∀ a ∈ l, f a = g a) : l.map f = l.map g := by
  induction l with
  | nil => rfl
  | cons a rest ih =>
    simp only [List.map_cons, h a (List.mem_cons_self _ _)]
    rw [ih (fun b hb => h b (List.mem_cons_of_mem _ hb))]

theorem flatMap_congr_mem {α β : Type} (l : List α) (f g : α → List β)
    (h : ∀ a ∈ l, f a = g a) : l.flatMap f = l.flatMap g := by
  induction l with
  | nil => rfl
  | cons a rest ih =>
    simp only [List.flatMap_cons, h a (List.mem_cons_self _ _)]
    rw [ih (fun b hb => h b (List.mem_cons_of_mem _ hb))]

theorem prod_mk_eq {α β : Type} (a c : α) (b d : β) (h1 : a = c)
    (h2 : b = d) : (a, b) = (c, d) := by
  rw [h1, h2]

theorem foldl_syncPair_eq (en : Table) (ns : String) (langs : List String) :
    ∀ (t : LocaleTree) (rep : List (String × String × Nat × Nat)),
    langs.Nodup →
    langs.foldl (syncPair en ns) (t, rep)
      = (fun l n => if l ∈ langs ∧ n = ns
            then some (syncTable en ((t l n).getD []))
            else t l n,
         rep ++ langs.map (fun lang =>
           (ns, lang, (missingKeys en ((t lang ns).getD [])).length,
            (extraKeys en ((t lang ns).getD [])).length))) := by
  induction langs with
  | nil =>
    intro t rep _
    have htree : (fun l n => if l ∈ ([] : List String) ∧ n = ns
          then some (syncTable en ((t l n).getD []))
          else t l n) = t := by
      funext l n
      simp
    simp only [List.foldl_nil, List.map_nil, List.append_nil, htree]
  | cons lang₀ rest ih =>
    intro t rep hnd
    have hl₀ : lang₀ ∉ rest := (List.nodup_cons.mp hnd).1
    have hnd' : rest.Nodup := (List.nodup_cons.mp hnd).2
    rw [List.foldl_cons]
    have hstep : syncPair en ns (t, rep) lang₀
        = (treeUpd t lang₀ ns (some (syncTable en ((t lang₀ ns).getD []))),
           rep ++ [(ns, lang₀,
                    (missingKeys en ((t lang₀ ns).getD [])).length,
                    (extraKeys en ((t lang₀ ns).getD [])).length)]) := rfl
    rw [hstep, ih _ _ hnd']
    refine prod_mk_eq _ _ _ _ ?_ ?_
    · funext l n
      by_cases hn : n = ns
      · by_cases hlr : l ∈ rest
        · have hne2 : ¬ l = lang₀ := fun hh => hl₀ (hh ▸ hlr)
          simp [treeUpd, hn, hlr, hne2]
        · by_cases hl0 : l = lang₀
          · simp [treeUpd, hn, hlr, hl0, hl₀]
          · simp [treeUpd, hn, hlr, hl0]
      · simp [treeUpd, hn]
    · rw [List.append_assoc, List.singleton_append]
      refine congrArg (rep ++ ·) ?_
      refine congrArg (List.cons _) ?_
      apply map_congr_mem
      intro lang hlang
      have hne : ¬ lang = lang₀ := fun hh => hl₀ (hh ▸ hlang)
      simp [treeUpd, hne]

theorem foldl_syncNamespace_eq (nss : List String) :
    ∀ (t : LocaleTree) (rep : List (String × String × Nat × Nat)),
    nss.Nodup →
    nss.foldl syncNamespace (t, rep)
      = (fun l n => if n ∈ nss ∧ l ∈ TARGET_LANGUAGES ∧ (t "en" n).isSome
            then some (syncTable ((t "en" n).getD []) ((t l n).getD []))
            else t l n,
         rep ++ nss.flatMap (fun ns =>
           match t "en" ns with
           | none => []
           | some en => TARGET_LANGUAGES.map (fun lang =>
               (ns, lang, (missingKeys en ((t lang ns).getD [])).length,
                (extraKeys en ((t lang ns).getD [])).length)))) := by
  induction nss with
  | nil =>
    intro t rep _
    have htree : (fun l n => if n ∈ ([] : List String)
            ∧ l ∈ TARGET_LANGUAGES ∧ (t "en" n).isSome
          then some (syncTable ((t "en" n).getD []) ((t l n).getD []))
          else t l n) = t := by
      funext l n
      simp
    simp only [List.foldl_nil, List.flatMap_nil, List.append_nil, htree]
  | cons ns₀ rest ih =>
    intro t rep hnd
    have hns₀ : ns₀ ∉ rest := (List.nodup_cons.mp hnd).1
    have hnd' : rest.Nodup := (List.nodup_cons.mp hnd).2
    have hENTarget : ("en" : String) ∉ TARGET_LANGUAGES := by decide
    rw [List.foldl_cons]
    cases hbase : t "en" ns₀ with
    | none =>
      have hstep : syncNamespace (t, rep) ns₀ = (t, rep) := by
        simp [syncNamespace, hbase]
      rw [hstep, ih t rep hnd']
      refine prod_mk_eq _ _ _ _ ?_ ?_
      · funext l n
        by_cases hn : n = ns₀
        · simp [hn, hbase, hns₀]
        · simp [hn]
      · rw [List.flatMap_cons]
        simp [hbase]
    | some en =>
      have hstep : syncNamespace (t, rep) ns₀
          = TARGET_LANGUAGES.foldl (syncPair en ns₀) (t, rep) := by
        simp [syncNamespace, hbase]
      rw [hstep, foldl_syncPair_eq en ns₀ TARGET_LANGUAGES t rep (by decide),
        ih _ _ hnd']
      refine prod_mk_eq _ _ _ _ ?_ ?_
      · funext l n
        by_cases hn : n = ns₀
        · by_cases hl : l ∈ TARGET_LANGUAGES
          · simp [hn, hns₀, hENTarget, hbase, hl]
          · simp [hn, hns₀, hENTarget, hbase, hl]
        · simp [hn, hENTarget, List.mem_cons]
      · rw [List.flatMap_cons]
        simp only [hbase, List.append_assoc]
        rw [List.append_right_inj, List.append_right_inj]
        apply flatMap_congr_mem
        intro ns hns
        have hne : ¬ ns = ns₀ := fun hh => hns₀ (hh ▸ hns)
        have he : (if ("en" : String) ∈ TARGET_LANGUAGES ∧ ns = ns₀
              then some (syncTable en ((t "en" ns).getD []))
              else t "en" ns) = t "en" ns := by
          simp [hENTarget]
        rw [he]
        cases htn : t "en" ns with
        | none => rfl
        | some en₂ =>
          simp only []
          apply map_congr_mem
          intro lang hlang
          simp [hne]

theorem runSync_eq (t : LocaleTree) : runSync t = (syncedTree t, syncReport t) := by
  rw [runSync, foldl_syncNamespace_eq NAMESPACES t [] (by decide)]
  refine prod_mk_eq _ _ _ _ rfl ?_
  rw [List.nil_append]
  rfl

theorem prefixTable_values :
    ∀ p ∈ PREFIX_TO_NAMESPACE, p.2 ∈ NAMESPACES ∧ p.2 ≠ "misc" := by
  decide

theorem getNamespace_mem (key : String) :
    getNamespace key ∈ NAMESPACES ++ ["misc"] := by
  rw [getNamespace]
  cases h : tlookup PREFIX_TO_NAMESPACE (keyHead key) with
  | none => simp
  | some v =>
    have hv := prefixTable_values _ (tlookup_mem _ _ _ h)
    simp only [Option.getD_some]
    exact List.mem_append.mpr (Or.inl hv.1)

theorem getNamespace_eq_misc_iff (key : String) :
    getNamespace key = "misc"
      ↔ tlookup PREFIX_TO_NAMESPACE (keyHead key) = none := by
  rw [getNamespace]
  cases h : tlookup PREFIX_TO_NAMESPACE (keyHead key) with
  | none => simp
  | some v =>
    have hv := prefixTable_values _ (tlookup_mem _ _ _ h)
    simp [hv.2]

theorem mem_partitionFun_aux (data : List (String × String)) :
    ∀ (f : String → Table) (ns k : String),
    k ∈ tkeys ((data.foldl partitionStep f) ns)
      ↔ k ∈ tkeys (f ns) ∨ (k ∈ tkeys data ∧ getNamespace k = ns) := by
  induction data with
  | nil =>
    intro f ns k
    simp [tkeys]
  | cons e rest ih =>
    intro f ns k
    obtain ⟨k₀, v₀⟩ := e
    rw [List.foldl_cons, ih]
    rw [tkeys_cons]
    by_cases hns : ns = getNamespace k₀
    · by_cases hk : k = k₀
      · subst hk
        simp [partitionStep, mem_tkeys_objSet, hns.symm]
      · simp [partitionStep, hns, mem_tkeys_objSet, hk]
    · by_cases hk : k = k₀
      · subst hk
        have hnn : ¬ getNamespace k = ns := fun hh => hns hh.symm
        simp [partitionStep, hns, hnn]
      · simp [partitionStep, hns, hk]

theorem mem_partitionFun (data : Table) (ns k : String) :
    k ∈ tkeys (partitionFun data ns)
      ↔ k ∈ tkeys data ∧ getNamespace k = ns := by
  rw [partitionFun, mem_partitionFun_aux]
  simp [tkeys]

theorem partitionFun_nodup_aux (data : List (String × String)) :
    ∀ (f : String → Table), (∀ ns, (tkeys (f ns)).Nodup) →
    ∀ ns, (tkeys ((data.foldl partitionStep f) ns)).Nodup := by
  induction data with
  | nil =>
    intro f hf ns
    exact hf ns
  | cons e rest ih =>
    intro f hf ns
    rw [List.foldl_cons]
    apply ih
    intro ns'
    rw [partitionStep]
    by_cases h : ns' = getNamespace e.1
    · rw [if_pos h]
      exact tkeys_nodup_objSet _ _ _ (hf ns')
    · rw [if_neg h]
      exact hf ns'

theorem partitionFun_nodup (data : Table) (ns : String) :
    (tkeys (partitionFun data ns)).Nodup := by
  rw [partitionFun]
  exact partitionFun_nodup_aux data (fun _ => []) (fun _ => List.nodup_nil) ns

theorem strListLe_total : ∀ as bs : List Char,
    strListLe as bs = true ∨ strListLe bs as = true := by
  intro as
  induction as with
  | nil => intro bs; left; rfl
  | cons a as ih =>
    intro bs
    cases bs with
    | nil => right; rfl
    | cons b bs =>
      simp only [strListLe, charLtb]
      by_cases h1 : a.toNat < b.toNat
      · left; simp [h1]
      · by_cases h2 : b.toNat < a.toNat
        · right; simp [h1, h2]
        · rcases ih bs with h | h
          · left; simp [h1, h2, h]
          · right; simp [h1, h2, h]

theorem strListLe_trans : ∀ as bs cs : List Char,
    strListLe as bs = true → strListLe bs cs = true →
    strListLe as cs = true := by
  intro as
  induction as with
  | nil => intro bs cs _ _; rfl
  | cons a as ih =>
    intro bs cs h1 h2
    cases bs with
    | nil => simp [strListLe] at h1
    | cons b bs =>
      cases cs with
      | nil => simp [strListLe] at h2
      | cons c cs =>
        simp only [strListLe, charLtb] at h1 h2 ⊢
        by_cases hab : a.toNat < b.toNat
        · by_cases hbc : b.toNat < c.toNat
          · simp [show a.toNat < c.toNat by omega]
          · by_cases hcb : c.toNat < b.toNat
            · simp [hbc, hcb] at h2
            · have hac : a.toNat < c.toNat := by omega
              simp [hac]
        · by_cases hba : b.toNat < a.toNat
          · simp [hab, hba] at h1
          · by_cases hbc : b.toNat < c.toNat
            · simp [show a.toNat < c.toNat by omega]
            · by_cases hcb : c.toNat < b.toNat
              · simp [hbc, hcb] at h2
              · have hac : ¬ a.toNat < c.toNat := by omega
                have hca : ¬ c.toNat < a.toNat := by omega
                simp [hab, hba] at h1
                simp [hbc, hcb] at h2
                simp [hac, hca]
                exact ih bs cs h1 h2

instance strLeIsTotal : IsTotal String (fun a b => strLe a b = true) :=
  ⟨fun a b => strListLe_total a.data b.data⟩

instance strLeIsTrans : IsTrans String (fun a b => strLe a b = true) :=
  ⟨fun a b c => strListLe_trans a.data b.data c.data⟩

theorem mem_sortKeys (ks : List String) (k : String) :
    k ∈ sortKeys ks ↔ k ∈ ks :=
  (List.perm_insertionSort _ ks).mem_iff

theorem sortKeys_nodup (ks : List String) (h : ks.Nodup) :
    (sortKeys ks).Nodup :=
  ((List.perm_insertionSort _ ks).nodup_iff).mpr h

theorem sortKeys_sorted (ks : List String) :
    List.Sorted (fun a b => strLe a b = true) (sortKeys ks) :=
  List.sorted_insertionSort _ ks

theorem mem_splitLanguage (data : Table) (ns : String) (tb : Table) :
    (ns, tb) ∈ splitLanguage data
      ↔ ns ∈ NAMESPACES ++ ["misc"] ∧ ¬ (partitionFun data ns).isEmpty
        ∧ tb = rebuildLoop (sortKeys (tkeys (partitionFun data ns)))
            (partitionFun data ns) := by
  constructor
  · intro hp
    obtain ⟨a, ha, hg⟩ := List.mem_filterMap.mp hp
    by_cases hemp : (partitionFun data a).isEmpty
    · simp [hemp] at hg
    · simp only [hemp, if_neg, Bool.false_eq_true, not_false_eq_true,
        Option.some.injEq, Prod.mk.injEq] at hg
      obtain ⟨h1, h2⟩ := hg
      subst h1
      exact ⟨ha, hemp, h2.symm⟩
  · rintro ⟨h1, h2, h3⟩
    apply List.mem_filterMap.mpr
    refine ⟨ns, h1, ?_⟩
    simp only [h2, if_neg, Bool.false_eq_true, not_false_eq_true, h3]

theorem foldl_append_match (l : List String) (files : String → Option Table) :
    ∀ init : List String,
    l.foldl (fun acc ns =>
        match files ns with
        | none => acc
        | some t => acc ++ tkeys t) init
      = init ++ l.flatMap (fun ns => tkeys ((files ns).getD [])) := by
  induction l with
  | nil =>
    intro init
    simp
  | cons ns₀ rest ih =>
    intro init
    rw [List.foldl_cons]
    cases h : files ns₀ with
    | none =>
      rw [ih]
      simp [List.flatMap_cons, h, tkeys]
    | some t =>
      rw [ih]
      simp [List.flatMap_cons, h, List.append_assoc]

theorem typeGenAllKeys_eq (files : String → Option Table) :
    typeGenAllKeys files
      = NAMESPACES.flatMap (fun ns => tkeys ((files ns).getD [])) := by
  rw [typeGenAllKeys, foldl_append_match]
  simp

theorem count_flatMap_eq_one (l : List String) (g : String → List String) :
    ∀ (k : String), l.Nodup → (∀ a ∈ l, (g a).Nodup) →
    (∀ a ∈ l, ∀ b ∈ l, a ≠ b → ∀ x ∈ g a, x ∉ g b) →
    (∃ a ∈ l, k ∈ g a) → (l.flatMap g).count k = 1 := by
  induction l with
  | nil =>
    intro k _ _ _ hex
    simp at hex
  | cons a rest ih =>
    intro k hnd hgn hdisj hex
    rw [List.flatMap_cons, List.count_append]
    have ha : a ∉ rest := (List.nodup_cons.mp hnd).1
    by_cases hk : k ∈ g a
    · have h0 : (g a).count k = 1 :=
        List.count_eq_one_of_mem (hgn a (List.mem_cons_self _ _)) hk
      have h1 : k ∉ rest.flatMap g := by
        intro hc
        obtain ⟨b, hb, hkb⟩ := List.mem_flatMap.mp hc
        exact hdisj a (List.mem_cons_self _ _) b (List.mem_cons_of_mem _ hb)
          (fun hh => ha (hh ▸ hb)) k hk hkb
      rw [h0, List.count_eq_zero.mpr h1]
    · obtain ⟨b, hb, hkb⟩ := hex
      have hbrest : b ∈ rest := by
        rcases List.mem_cons.mp hb with h | h
        · exact absurd (h ▸ hkb) hk
        · exact h
      rw [List.count_eq_zero.mpr hk,
        ih k (List.nodup_cons.mp hnd).2
          (fun c hc => hgn c (List.mem_cons_of_mem _ hc))
          (fun c hc d hd hcd => hdisj c (List.mem_cons_of_mem _ hc)
            d (List.mem_cons_of_mem _ hd) hcd)
          ⟨b, hbrest, hkb⟩]

theorem table_length_eq_keys (t : Table) : t.length = (tkeys t).length := by
  simp [tkeys]

theorem syncedTree_of_orderConsistent (t : LocaleTree)
    (h : orderConsistent t) : syncedTree t = t := by
  funext l n
  rw [syncedTree]
  by_cases hc : n ∈ NAMESPACES ∧ l ∈ TARGET_LANGUAGES ∧ (t "en" n).isSome
  · obtain ⟨hn, hl, hsome⟩ := hc
    rw [if_pos ⟨hn, hl, hsome⟩]
    obtain ⟨hnd, hrest⟩ := h n hn
    obtain ⟨hlsome, hleq⟩ := hrest hsome l hl
    rw [syncTable_self _ _ hnd hleq]
    obtain ⟨tt, htt⟩ := Option.isSome_iff_exists.mp hlsome
    rw [htt]
    rfl
  · rw [if_neg hc]

theorem syncReport_zeros_of_orderConsistent (t : LocaleTree)
    (h : orderConsistent t) :
    ∀ e ∈ syncReport t, e.2.2.1 = 0 ∧ e.2.2.2 = 0 := by
  intro e he
  obtain ⟨ns, hns, hmem⟩ := List.mem_flatMap.mp he
  obtain ⟨hnd, hrest⟩ := h ns hns
  cases hbase : t "en" ns with
  | none => rw [hbase] at hmem; simp at hmem
  | some en =>
    rw [hbase] at hmem
    obtain ⟨lang, hlang, heq⟩ := List.mem_map.mp hmem
    obtain ⟨hlsome, hleq⟩ := hrest (by rw [hbase]; rfl) lang hlang
    have hen : (t "en" ns).getD [] = en := by rw [hbase]; rfl
    rw [hen] at hleq
    have hmiss : missingKeys en ((t lang ns).getD []) = [] :=
      missingKeys_nil _ _ (fun k hk => by rw [hleq]; exact hk)
    have hextra : extraKeys en ((t lang ns).getD []) = [] :=
      extraKeys_nil _ _ (fun k hk => by rw [← hleq]; exact hk)
    rw [← heq]
    simp [hmiss, hextra]

theorem splitRun_append (pre : List String) :
    ∀ (post : List String) (files : String → Option Table),
    (∀ l ∈ pre, (files l).isSome) →
    splitRun (pre ++ post) files
      = (pre.flatMap (fun l => (splitLanguage ((files l).getD [])).map
            (fun p => (l, p.1, p.2))) ++ (splitRun post files).1,
         (splitRun post files).2) := by
  induction pre with
  | nil =>
    intro post files _
    simp
  | cons l₀ rest ih =>
    intro post files hpre
    obtain ⟨d, hd⟩ :=
      Option.isSome_iff_exists.mp (hpre l₀ (List.mem_cons_self _ _))
    rw [List.cons_append]
    simp only [splitRun, hd]
    rw [ih post files (fun l hl => hpre l (List.mem_cons_of_mem _ hl))]
    simp [List.flatMap_cons, hd, List.append_assoc]

theorem tkeys_splitFile (data : Table) (ns : String) :
    tkeys (rebuildLoop (sortKeys (tkeys (partitionFun data ns)))
      (partitionFun data ns))
      = sortKeys (tkeys (partitionFun data ns)) := by
  have hnd := partitionFun_nodup data ns
  rw [rebuildLoop_eq _ _ (sortKeys_nodup _ hnd)]
  exact tkeys_filterMap_lookup _ _ (fun k hk => (mem_sortKeys _ k).mp hk)

theorem mem_tkeys_splitFile (data : Table) (ns k : String) :
    k ∈ tkeys (rebuildLoop (sortKeys (tkeys (partitionFun data ns)))
      (partitionFun data ns))
      ↔ k ∈ tkeys data ∧ getNamespace k = ns := by
  rw [tkeys_splitFile, mem_sortKeys]
  exact mem_partitionFun data ns k

/-! ## Claim theorems -/

/-- C2: synchronizer convergence.  For every base table (with distinct
keys, as `JSON.parse` guarantees) and every target table, after one
`syncTable` pass the target's key set equals the base's key set exactly;
a key missing from the target carries the base value, a key the target
already had keeps its pre-sync value, and a key absent from the base is
absent from the result. -/
theorem sync_convergence (en tgt : Table) (hnd : (tkeys en).Nodup) :
    (∀ k, k ∈ tkeys (syncTable en tgt) ↔ k ∈ tkeys en)
    ∧ (∀ k, k ∈ tkeys en → k ∉ tkeys tgt →
        tlookup (syncTable en tgt) k = tlookup en k)
    ∧ (∀ k, k ∈ tkeys en → k ∈ tkeys tgt →
        tlookup (syncTable en tgt) k = tlookup tgt k)
    ∧ (∀ k, k ∉ tkeys en → k ∉ tkeys (syncTable en tgt)) := by
  have hkeys := tkeys_syncTable en tgt hnd
  refine ⟨fun k => by rw [hkeys], ?_, ?_, fun k hk => by rw [hkeys]; exact hk⟩
  · intro k hk ht
    rw [tlookup_syncTable en tgt hnd k, if_pos hk, if_neg ht]
  · intro k hk ht
    rw [tlookup_syncTable en tgt hnd k, if_pos hk, if_pos ht]

/-- C2 witness: the spec's own instance, base keys `{a, b, c}` and target
keys `{a, d}`. -/
theorem sync_convergence_witness :
    (tkeys exBase).Nodup
    ∧ tlookup (syncTable exBase exTarget) "a" = some "old"
    ∧ tlookup (syncTable exBase exTarget) "b" = some "B"
    ∧ tlookup (syncTable exBase exTarget) "c" = some "C"
    ∧ "d" ∉ tkeys (syncTable exBase exTarget) :=
  ⟨by decide,
   ((sync_convergence exBase exTarget (by decide)).2.2.1 "a"
      (by decide) (by decide)).trans (by decide),
   ((sync_convergence exBase exTarget (by decide)).2.1 "b"
      (by decide) (by decide)).trans (by decide),
   ((sync_convergence exBase exTarget (by decide)).2.1 "c"
      (by decide) (by decide)).trans (by decide),
   (sync_convergence exBase exTarget (by decide)).2.2.2 "d" (by decide)⟩

/-- C3: order preservation.  For every tree, every declared namespace
whose base file exists (with distinct keys) and every target locale, the
key sequence of the locale's persisted file after the run equals the base
table's key sequence, whatever the target file contained before. -/
theorem sync_order_preservation (t : LocaleTree) (ns lang : String)
    (hns : ns ∈ NAMESPACES) (hlang : lang ∈ TARGET_LANGUAGES)
    (en : Table) (hbase : t "en" ns = some en) (hnd : (tkeys en).Nodup) :
    ∃ tt, (runSync t).1 lang ns = some tt ∧ tkeys tt = tkeys en := by
  refine ⟨syncTable en ((t lang ns).getD []), ?_, tkeys_syncTable en _ hnd⟩
  rw [runSync_eq]
  simp [syncedTree, hns, hlang, hbase]

/-- C3 witness: a `ko/common` file holding a subset of the base keys in
scrambled order is rewritten with the base's key sequence. -/
theorem sync_order_preservation_witness :
    witTree3 "en" "common" = some [("a", "1"), ("b", "2"), ("c", "3")]
    ∧ ∃ tt, (runSync witTree3).1 "ko" "common" = some tt
        ∧ tkeys tt = tkeys [("a", "1"), ("b", "2"), ("c", "3")] :=
  ⟨by decide,
   sync_order_preservation witTree3 "common" "ko" (by decide) (by decide)
     [("a", "1"), ("b", "2"), ("c", "3")] (by decide) (by decide)⟩

/-- C5: classifier totality.  `getNamespace` always returns one of the
declared namespaces or the catch-all `misc`, and it returns `misc`
exactly when the key's first dot-segment is not a key of the fixed
prefix table. -/
theorem classifier_totality (key : String) :
    getNamespace key ∈ NAMESPACES ++ ["misc"]
    ∧ (getNamespace key = "misc"
        ↔ tlookup PREFIX_TO_NAMESPACE (keyHead key) = none) :=
  ⟨getNamespace_mem key, getNamespace_eq_misc_iff key⟩

/-- C5 witness: a mapped prefix and an unmapped prefix. -/
theorem classifier_totality_witness :
    getNamespace "settingsManager.title" ∈ NAMESPACES ++ ["misc"]
    ∧ getNamespace "weird.key" = "misc" :=
  ⟨(classifier_totality "settingsManager.title").1,
   (classifier_totality "weird.key").2.mpr (by decide)⟩

/-- C6: base-locale frame.  A synchronizer run never changes any `en`
file: the base locale is read-only input. -/
theorem sync_base_frame (t : LocaleTree) (ns : String) :
    (runSync t).1 "en" ns = t "en" ns := by
  simp only [runSync_eq, syncedTree]
  rw [if_neg]
  intro hc
  exact (by decide : ("en" : String) ∉ TARGET_LANGUAGES) hc.2.1

/-- C1 counterexample: a tree in which every locale's `common` key set
equals the base key set (so the claim's hypothesis holds and the run
performs zero insertions and deletions), yet the `ko/common` file stores
the keys in a different order, so the run rewrites it with different
bytes — key-set equality alone does not give byte-identical output. -/
theorem sync_idempotence_cex :
    keySetConsistent cexTree1
    ∧ (∀ e ∈ (runSync cexTree1).2, e.2.2.1 = 0 ∧ e.2.2.2 = 0)
    ∧ fileBytes ((runSync cexTree1).1 "ko" "common")
        ≠ fileBytes (cexTree1 "ko" "common") :=
  ⟨by decide, by decide, by decide⟩

/-- C1 (amended): the synchronizer is idempotent on trees whose target
files match the base files' key *sequence* (set and order), not merely
the key set: on such a tree the run performs zero insertions and zero
deletions, leaves the tree unchanged, and rewrites every file with
byte-identical content. -/
theorem sync_idempotent (t : LocaleTree) (h : orderConsistent t) :
    (runSync t).1 = t
    ∧ (∀ e ∈ (runSync t).2, e.2.2.1 = 0 ∧ e.2.2.2 = 0)
    ∧ (∀ l n, fileBytes ((runSync t).1 l n) = fileBytes (t l n)) := by
  have h1 : (runSync t).1 = t := by
    rw [runSync_eq]
    exact syncedTree_of_orderConsistent t h
  refine ⟨h1, ?_, ?_⟩
  · rw [runSync_eq]
    exact syncReport_zeros_of_orderConsistent t h
  · intro l n
    rw [h1]

/-- C1 witness: a concrete order-consistent tree on which the run leaves
the `ko/common` bytes identical. -/
theorem sync_idempotent_witness :
    orderConsistent witTree1
    ∧ fileBytes ((runSync witTree1).1 "ko" "common")
        = fileBytes (witTree1 "ko" "common") :=
  ⟨by decide, (sync_idempotent witTree1 (by decide)).2.2 "ko" "common"⟩

/-- C4: splitter partition completeness.  For every flat table, a key
appears in some produced partition (including the catch-all) exactly when
it appears in the input, and no key lands in two partitions with
different namespaces. -/
theorem splitter_partition (data : Table) :
    (∀ k, (∃ p ∈ splitLanguage data, k ∈ tkeys p.2) ↔ k ∈ tkeys data)
    ∧ (∀ p₁ ∈ splitLanguage data, ∀ p₂ ∈ splitLanguage data,
        ∀ k, k ∈ tkeys p₁.2 → k ∈ tkeys p₂.2 → p₁.1 = p₂.1) := by
  constructor
  · intro k
    constructor
    · rintro ⟨p, hp, hk⟩
      have h := (mem_splitLanguage data p.1 p.2).mp hp
      rw [h.2.2] at hk
      exact ((mem_tkeys_splitFile data p.1 k).mp hk).1
    · intro hk
      refine ⟨(getNamespace k,
        rebuildLoop (sortKeys (tkeys (partitionFun data (getNamespace k))))
          (partitionFun data (getNamespace k))), ?_, ?_⟩
      · refine (mem_splitLanguage data _ _).mpr
          ⟨getNamespace_mem k, ?_, rfl⟩
        intro hemp
        have hmem : k ∈ tkeys (partitionFun data (getNamespace k)) :=
          (mem_partitionFun data _ k).mpr ⟨hk, rfl⟩
        rw [List.isEmpty_iff] at hemp
        rw [hemp] at hmem
        simp [tkeys] at hmem
      · exact (mem_tkeys_splitFile data _ k).mpr ⟨hk, rfl⟩
  · intro p₁ hp₁ p₂ hp₂ k hk₁ hk₂
    have h₁ := (mem_splitLanguage data p₁.1 p₁.2).mp hp₁
    have h₂ := (mem_splitLanguage data p₂.1 p₂.2).mp hp₂
    rw [h₁.2.2] at hk₁
    rw [h₂.2.2] at hk₂
    have e₁ := ((mem_tkeys_splitFile data p₁.1 k).mp hk₁).2
    have e₂ := ((mem_tkeys_splitFile data p₂.1 k).mp hk₂).2
    rw [← e₁, ← e₂]

/-- C4 witness: in the concrete flat table, the unmapped key is found in
some partition, and the `common` partition's key is not duplicated
elsewhere. -/
theorem splitter_partition_witness :
    (∃ p ∈ splitLanguage exFlat, "weird.key" ∈ tkeys p.2)
    ∧ ("common", [("common.a", "1")]) ∈ splitLanguage exFlat :=
  ⟨((splitter_partition exFlat).1 "weird.key").mpr (by decide), by decide⟩

/-- C7 counterexample: with the `en` flat file present, the `ko` file
missing and the `ja` file present, the splitter's run stops at `ko`:
`en` is processed but `ja` — a perfectly readable locale — is not, so a
single locale's failure does not leave the other locales processed. -/
theorem splitter_isolation_cex :
    exSplitFiles "ko" = none
    ∧ (exSplitFiles "ja").isSome
    ∧ mainSplit exSplitFiles
        = ([("en", "common", [("common.a", "1")])], some "ko")
    ∧ (∀ o ∈ (mainSplit exSplitFiles).1, o.1 ≠ "ja") :=
  ⟨rfl, by decide, by decide, by decide⟩

/-- C7 (amended): a locale whose flat input is missing (or unparsable)
aborts the whole splitter run at that locale: the locales before it in
the declaration order are processed and keep their outputs, the failing
locale is reported, and no later locale is processed. -/
theorem splitter_abort (files : String → Option Table)
    (pre post : List String) (lang₀ : String)
    (hL : LANGUAGES = pre ++ lang₀ :: post)
    (hpre : ∀ l ∈ pre, (files l).isSome) (hfail : files lang₀ = none) :
    mainSplit files
      = (pre.flatMap (fun l => (splitLanguage ((files l).getD [])).map
          (fun p => (l, p.1, p.2))), some lang₀) := by
  rw [mainSplit, hL, splitRun_append pre (lang₀ :: post) files hpre]
  simp only [splitRun, hfail]
  simp

/-- C7 witness: the concrete input of the counterexample, decomposed as
`["en"] ++ "ko" :: ["ja", "zh-CN", "zh-TW"]`. -/
theorem splitter_abort_witness :
    LANGUAGES = ["en"] ++ "ko" :: ["ja", "zh-CN", "zh-TW"]
    ∧ mainSplit exSplitFiles
      = (["en"].flatMap (fun l =>
          (splitLanguage ((exSplitFiles l).getD [])).map
            (fun p => (l, p.1, p.2))), some "ko") :=
  ⟨rfl, splitter_abort exSplitFiles ["en"] ["ja", "zh-CN", "zh-TW"] "ko"
    rfl (by decide) (by decide)⟩

/-- C8 counterexample: on a tree with no base files and one `ko/common`
file, after the run the persisted `ko` and `en` key counts for `common`
differ by one, yet the run's entire diagnostic output — the report (here
empty) and the final summary — contains only per-locale totals and no
per-namespace comparison or difference. -/
theorem sync_consistency_check_cex :
    (((runSync cexTree8).1 "ko" "common").getD []).length
        ≠ (((runSync cexTree8).1 "en" "common").getD []).length
    ∧ (runSync cexTree8).2 = []
    ∧ finalSummary ((runSync cexTree8).1)
        = [("en", 0), ("ko", 1), ("ja", 0), ("zh-CN", 0), ("zh-TW", 0)] :=
  ⟨by decide, by decide, by decide⟩

/-- C8 (amended): after processing, the synchronizer's final verification
reports only one total key count per locale, summed over the eleven
declared namespaces' persisted files; it compares nothing against the
base.  When every declared namespace has a base file (with distinct
keys), every locale's reported total equals the base locale's total. -/
theorem sync_summary_totals (t : LocaleTree) (h : basesPresent t) :
    finalSummary ((runSync t).1)
      = ("en" :: TARGET_LANGUAGES).map (fun lang =>
          (lang, (NAMESPACES.map
            (fun ns => ((t "en" ns).getD []).length)).sum)) := by
  have hrw : (runSync t).1 = syncedTree t := by rw [runSync_eq]
  rw [hrw, finalSummary]
  apply map_congr_mem
  intro lang hlang
  rcases List.mem_cons.mp hlang with hen | htgt
  · subst hen
    refine congrArg (Prod.mk "en") ?_
    refine congrArg List.sum ?_
    apply map_congr_mem
    intro ns _
    have he : syncedTree t "en" ns = t "en" ns := by
      rw [syncedTree, if_neg]
      intro hc
      exact (by decide : ("en" : String) ∉ TARGET_LANGUAGES) hc.2.1
    rw [he]
  · refine congrArg (Prod.mk lang) ?_
    refine congrArg List.sum ?_
    apply map_congr_mem
    intro ns hns
    obtain ⟨hsome, hnd⟩ := h ns hns
    have he : syncedTree t lang ns
        = some (syncTable ((t "en" ns).getD []) ((t lang ns).getD [])) := by
      rw [syncedTree, if_pos ⟨hns, htgt, hsome⟩]
    rw [he]
    simp only [Option.getD_some]
    rw [table_length_eq_keys, tkeys_syncTable _ _ hnd, ← table_length_eq_keys]

/-- C8 witness: a tree in which every declared namespace has a one-key
base file. -/
theorem sync_summary_totals_witness :
    basesPresent witTree8
    ∧ finalSummary ((runSync witTree8).1)
      = ("en" :: TARGET_LANGUAGES).map (fun lang =>
          (lang, (NAMESPACES.map
            (fun ns => ((witTree8 "en" ns).getD []).length)).sum)) :=
  ⟨by decide, sync_summary_totals witTree8 (by decide)⟩

/-- C9 counterexample: when two namespaces' base files share the key `x`,
the generated global key union lists `x` twice — a key present in a base
file need not appear exactly once in the union. -/
theorem typegen_union_cex :
    "common" ∈ NAMESPACES
    ∧ "x" ∈ tkeys ((cexFiles9 "common").getD [])
    ∧ typeGenGlobalUnion cexFiles9 = ["x", "x"]
    ∧ (typeGenGlobalUnion cexFiles9).count "x" ≠ 1 :=
  ⟨by decide, by decide, by decide, by decide⟩

/-- C9 (amended): when the base-locale namespace files have distinct keys
within each file and pairwise disjoint key sets across namespaces (as the
splitter's partitioning guarantees), every key of a base file appears
exactly once in the generated global key union and the union contains
nothing else; for each declared namespace whose base file exists, the
emitted enumeration for it is exactly its key list sorted
lexicographically; a declared namespace with no base file is omitted from
the emitted enumerations. -/
theorem typegen_completeness (files : String → Option Table)
    (hnd : nsFilesNodup files) (hdisj : nsFilesDisjoint files) :
    (∀ k, (∃ ns ∈ NAMESPACES, k ∈ tkeys ((files ns).getD [])) →
        (typeGenGlobalUnion files).count k = 1)
    ∧ (∀ k ∈ typeGenGlobalUnion files,
        ∃ ns ∈ NAMESPACES, k ∈ tkeys ((files ns).getD []))
    ∧ (∀ ns ∈ NAMESPACES, ∀ tb, files ns = some tb →
        (ns, sortKeys (tkeys tb)) ∈ typeGenEnums files
        ∧ List.Perm (sortKeys (tkeys tb)) (tkeys tb)
        ∧ List.Sorted (fun a b => strLe a b = true) (sortKeys (tkeys tb)))
    ∧ (∀ ns ∈ NAMESPACES, files ns = none →
        ∀ p ∈ typeGenEnums files, p.1 ≠ ns) := by
  refine ⟨?_, ?_, ?_, ?_⟩
  · intro k hex
    rw [typeGenGlobalUnion, sortKeys,
      (List.perm_insertionSort _ _).count_eq, typeGenAllKeys_eq]
    exact count_flatMap_eq_one NAMESPACES _ k (by decide)
      (fun a ha => hnd a ha)
      (fun a ha b hb hab x hx => hdisj a ha b hb hab x hx) hex
  · intro k hk
    rw [typeGenGlobalUnion] at hk
    have hk2 := (mem_sortKeys _ k).mp hk
    rw [typeGenAllKeys_eq] at hk2
    obtain ⟨ns, hns, hkns⟩ := List.mem_flatMap.mp hk2
    exact ⟨ns, hns, hkns⟩
  · intro ns hns tb htb
    refine ⟨?_, List.perm_insertionSort _ _, sortKeys_sorted _⟩
    rw [typeGenEnums]
    apply List.mem_map.mpr
    refine ⟨(ns, tkeys tb), ?_, rfl⟩
    rw [typeGenNamespaceKeys]
    apply List.mem_filterMap.mpr
    refine ⟨ns, hns, ?_⟩
    rw [htb]
    rfl
  · intro ns hns hnone p hp hpns
    rw [typeGenEnums] at hp
    obtain ⟨q, hq, hpq⟩ := List.mem_map.mp hp
    rw [typeGenNamespaceKeys] at hq
    obtain ⟨a, _, hqa⟩ := List.mem_filterMap.mp hq
    cases hfa : files a with
    | none =>
      rw [hfa] at hqa
      simp at hqa
    | some tb =>
      rw [hfa] at hqa
      have hq2 : (a, tkeys tb) = q := by simpa using hqa
      subst hq2
      subst hpq
      simp only [] at hpns
      rw [hpns] at hfa
      rw [hnone] at hfa
      exact Option.noConfusion hfa

/-- C9 witness: disjoint base files; the key `a` is counted once in the
union and `common`'s enumeration is its sorted key list. -/
theorem typegen_completeness_witness :
    nsFilesNodup witFiles9
    ∧ (typeGenGlobalUnion witFiles9).count "a" = 1
    ∧ ("common", sortKeys (tkeys [("b", "1"), ("a", "2")]))
        ∈ typeGenEnums witFiles9 :=
  ⟨by decide,
   (typegen_completeness witFiles9 (by decide) (by decide)).1 "a"
     ⟨"common", by decide, by decide⟩,
   ((typegen_completeness witFiles9 (by decide) (by decide)).2.2.1 "common"
     (by decide) [("b", "1"), ("a", "2")] (by decide)).1⟩

/-- C10: the catch-all `misc` namespace is outside the synchronizer's
domain.  A run never changes any locale's `misc` file; changing a `misc`
file changes nothing about the run except that same file (so `misc` files
are never read); and the final per-locale summary is blind to `misc`
files. -/
theorem sync_misc_frame (t : LocaleTree) (lang : String) (v : Option Table) :
    (runSync t).1 lang "misc" = t lang "misc"
    ∧ runSync (treeUpd t lang "misc" v)
        = (treeUpd ((runSync t).1) lang "misc" v, (runSync t).2)
    ∧ finalSummary (treeUpd t lang "misc" v) = finalSummary t := by
  have hmiscns : ("misc" : String) ∉ NAMESPACES := by decide
  refine ⟨?_, ?_, ?_⟩
  · simp only [runSync_eq, syncedTree]
    rw [if_neg]
    intro hc
    exact hmiscns hc.1
  · have hfst : (runSync t).1 = syncedTree t := by rw [runSync_eq]
    have hsnd : (runSync t).2 = syncReport t := by rw [runSync_eq]
    rw [runSync_eq (treeUpd t lang "misc" v), hfst, hsnd]
    refine prod_mk_eq _ _ _ _ ?_ ?_
    · funext l n
      by_cases hm : n = "misc"
      · subst hm
        by_cases hl : l = lang
        · simp [syncedTree, treeUpd, hl, hmiscns]
        · simp [syncedTree, treeUpd, hl, hmiscns]
      · simp [syncedTree, treeUpd, hm]
    · rw [syncReport, syncReport]
      apply flatMap_congr_mem
      intro ns hns
      have hne : ¬ ns = "misc" := fun hh => hmiscns (hh ▸ hns)
      have h1 : treeUpd t lang "misc" v "en" ns = t "en" ns := by
        simp [treeUpd, hne]
      rw [h1]
      cases hb : t "en" ns with
      | none => rfl
      | some en =>
        simp only []
        apply map_congr_mem
        intro lg _
        have h2 : treeUpd t lang "misc" v lg ns = t lg ns := by
          simp [treeUpd, hne]
        rw [h2]
  · rw [finalSummary, finalSummary]
    apply map_congr_mem
    intro lg _
    refine congrArg (Prod.mk lg) ?_
    refine congrArg List.sum ?_
    apply map_congr_mem
    intro ns hns
    have hne : ¬ ns = "misc" := fun hh => hmiscns (hh ▸ hns)
    simp [treeUpd, hne]
